import Mathlib

/-!
# Verification of the gomokugen board engine

A shallow embedding of the gomoku board state machine and game-tree traversal
from `src/board.rs` and `src/perft.rs`, together with theorems settling the
specification claims.

Conventions of the embedding:
* Rust machine integers (`u16`, `usize`, `u8`, `u64`) become `Nat`; the signed
  `isize` coordinates used by the win scan become `Int`.  None of the verified
  operations can overflow their Rust types on the boards they are run on
  (indices are at most `19*19 = 361`, perft counts at the depths considered
  stay far below `2^64`), so the embedding does not insert modular reductions.
* The `SIDE_LENGTH`-indexed 2-D array `[[Player; SIDE]; SIDE]` becomes a flat
  row-major `List Player` of length `SIDE*SIDE`; the source itself flattens it
  this way (`cells.iter().flatten().enumerate()`), and `cells[i][j]` is the
  flat index `i * SIDE + j`.
* Code that can panic is modelled with an explicit `panic` result constructor
  (`PRes`) where a claim is about panics, and otherwise with total functions
  used only on the arguments on which the source is defined.
* Rust closures passed to `generate_moves` become explicit state-passing
  functions `σ → Move n → σ × Bool`; the returned `Bool` is the source's
  short-circuit signal.
-/

namespace Gomoku

/-- Cell marker / player, from `enum Player { None, X, O }` in `board.rs`. -/
inductive Player where
  | none
  | X
  | O
deriving DecidableEq, Repr

/-- `impl Neg for Player`: toggle to the opponent.  The source panics on
`Player::None` ("No player to move"); that branch is unreachable in every use
(the argument is always `turn()`, which is `X` or `O`), and the model returns
`none` there. -/
def Player.neg : Player → Player
  | .X => .O
  | .O => .X
  | .none => .none

/-- `struct Move<const SIDE_LENGTH: usize> { index: u16 }`: a flattened
row-major cell index.  The side length is a phantom parameter, as in the
source. -/
structure Move (n : Nat) where
  index : Nat
deriving DecidableEq, Repr

/-- `Move::null()` is `Move { index: u16::MAX }`. -/
def Move.null (n : Nat) : Move n := ⟨65535⟩

/-- `Move::is_null`: equality with the `u16::MAX` sentinel. -/
def Move.is_null (m : Move n) : Bool := m.index == 65535

/-- `struct Board<const SIDE_LENGTH: usize>` from `board.rs`:
row-major cell grid, last applied move, move counter. -/
structure Board (n : Nat) where
  cells : List Player
  last_move : Option (Move n)
  ply : Nat
deriving DecidableEq, Repr

/-- The cell grid of `Board::new()`: all cells `Player::None`. -/
def Board.empty (n : Nat) : Board n :=
  { cells := List.replicate (n * n) Player.none, last_move := none, ply := 0 }

/-- Result of a computation that can also end in a Rust panic. -/
inductive PRes (α : Type) where
  | ok : α → PRes α
  | err : String → PRes α
  | panic : PRes α
deriving DecidableEq, Repr

/-- `Board::new()`: asserts `SIDE_LENGTH <= 19` (panics otherwise) and returns
the empty board. -/
def Board.new (n : Nat) : PRes (Board n) :=
  if n ≤ 19 then .ok (Board.empty n) else .panic

/-- `Board::turn()`: `X` if `ply` is even, else `O` (derived, not stored). -/
def turn (b : Board n) : Player :=
  match b.ply % 2 with
  | 0 => .X
  | _ => .O

/-- `Board::make_move`: writes `turn()` at `cells[index / SIDE][index % SIDE]`
(the flat index `(index / n) * n + index % n`), records the move as
`last_move`, and increments `ply`. -/
def make_move (b : Board n) (m : Move n) : Board n :=
  { cells := b.cells.set (m.index / n * n + m.index % n) (turn b)
    last_move := some m
    ply := b.ply + 1 }

/-- `Board::make_move` as compiled with debug assertions: the single
`debug_assert!(!mv.is_null())` guard, then the mutation.  (There is no
debug assertion about the target cell's contents in the source.) -/
def make_move_debug (b : Board n) (m : Move n) : Option (Board n) :=
  if m.is_null then none else some (make_move b m)

/-- Loop body of `Board::generate_moves`: walk the flattened cells with their
indices, call `f` on each empty cell, stop as soon as `f` returns `true`. -/
def gmGo (f : σ → Move n → σ × Bool) : List Player → Nat → σ → σ
  | [], _, s => s
  | c :: rest, i, s =>
    if c = Player.none then
      match f s ⟨i⟩ with
      | (s', true) => s'
      | (s', false) => gmGo f rest (i + 1) s'
    else gmGo f rest (i + 1) s

/-- `Board::generate_moves(callback)`: enumerate the moves for all empty cells
in row-major order, short-circuiting when the callback returns `true`.  The
callback's mutable captured state is made explicit as `σ`. -/
def generate_moves (b : Board n) (f : σ → Move n → σ × Bool) (s : σ) : σ :=
  gmGo f b.cells 0 s

/-! ## Specification-side descriptions of move enumeration -/

/-- The indices of the empty cells of `l`, in ascending order, starting the
numbering at `i`. -/
def emptyIndicesFrom : List Player → Nat → List Nat
  | [], _ => []
  | c :: rest, i =>
    if c = Player.none then i :: emptyIndicesFrom rest (i + 1)
    else emptyIndicesFrom rest (i + 1)

/-- The ascending list of empty-cell indices of a board: the legal moves. -/
def emptyIdx (b : Board n) : List Nat := emptyIndicesFrom b.cells 0

/-- Run a visitor over an explicit list of moves, threading the state and
stopping at the first move on which the visitor signals `true`. -/
def runVisits (f : σ → Move n → σ × Bool) : List (Move n) → σ → σ
  | [], s => s
  | m :: ms, s =>
    match f s m with
    | (s', true) => s'
    | (s', false) => runVisits f ms s'

theorem gmGo_eq_runVisits (f : σ → Move n → σ × Bool) :
    ∀ (l : List Player) (i : Nat) (s : σ),
      gmGo f l i s = runVisits f ((emptyIndicesFrom l i).map fun j => (⟨j⟩ : Move n)) s := by
  intro l
  induction l with
  | nil => intro i s; rfl
  | cons c rest ih =>
    intro i s
    by_cases hc : c = Player.none
    · simp only [gmGo, emptyIndicesFrom, hc, if_pos rfl, List.map_cons, runVisits]
      cases hfs : f s ⟨i⟩ with
      | mk s' stop =>
        cases stop
        · simpa using ih (i + 1) s'
        · rfl
    · simp only [gmGo, emptyIndicesFrom, hc, if_neg hc, if_false]
      exact ih (i + 1) s

theorem generate_moves_eq_runVisits (b : Board n) (f : σ → Move n → σ × Bool) (s : σ) :
    generate_moves b f s = runVisits f ((emptyIdx b).map fun j => (⟨j⟩ : Move n)) s :=
  gmGo_eq_runVisits f b.cells 0 s

theorem mem_emptyIndicesFrom :
    ∀ (l : List Player) (k j : Nat),
      j ∈ emptyIndicesFrom l k ↔ (k ≤ j ∧ l[j - k]? = some Player.none) := by
  intro l
  induction l with
  | nil => intro k j; simp [emptyIndicesFrom]
  | cons c rest ih =>
    intro k j
    rw [emptyIndicesFrom]
    by_cases hc : c = Player.none
    · rw [if_pos hc, List.mem_cons, ih (k + 1) j]
      constructor
      · rintro (rfl | ⟨h1, h2⟩)
        · subst hc
          simp
        · have hjk : j - k = (j - (k + 1)) + 1 := by omega
          refine ⟨by omega, ?_⟩
          rw [hjk, List.getElem?_cons_succ]
          exact h2
      · rintro ⟨h1, h2⟩
        rcases Nat.eq_or_lt_of_le h1 with rfl | hlt
        · left; rfl
        · right
          have hjk : j - k = (j - (k + 1)) + 1 := by omega
          rw [hjk, List.getElem?_cons_succ] at h2
          exact ⟨by omega, h2⟩
    · rw [if_neg hc, ih (k + 1) j]
      constructor
      · rintro ⟨h1, h2⟩
        have hjk : j - k = (j - (k + 1)) + 1 := by omega
        refine ⟨by omega, ?_⟩
        rw [hjk, List.getElem?_cons_succ]
        exact h2
      · rintro ⟨h1, h2⟩
        rcases Nat.eq_or_lt_of_le h1 with rfl | hlt
        · rw [Nat.sub_self, List.getElem?_cons_zero] at h2
          exact absurd (Option.some.inj h2) hc
        · have hjk : j - k = (j - (k + 1)) + 1 := by omega
          rw [hjk, List.getElem?_cons_succ] at h2
          exact ⟨by omega, h2⟩

theorem emptyIndicesFrom_lower_bound :
    ∀ (l : List Player) (k j : Nat), j ∈ emptyIndicesFrom l k → k ≤ j := by
  intro l k j h
  exact ((mem_emptyIndicesFrom l k j).1 h).1

theorem emptyIndicesFrom_sorted :
    ∀ (l : List Player) (k : Nat), (emptyIndicesFrom l k).Pairwise (· < ·) := by
  intro l
  induction l with
  | nil => intro k; simp [emptyIndicesFrom]
  | cons c rest ih =>
    intro k
    by_cases hc : c = Player.none
    · simp only [emptyIndicesFrom, if_pos hc]
      refine List.Pairwise.cons ?_ (ih (k + 1))
      intro j hj
      have := emptyIndicesFrom_lower_bound rest (k + 1) j hj
      omega
    · simp only [emptyIndicesFrom, if_neg hc]
      exact ih (k + 1)

theorem emptyIndicesFrom_length_eq_count :
    ∀ (l : List Player) (k : Nat),
      (emptyIndicesFrom l k).length = l.count Player.none := by
  intro l
  induction l with
  | nil => intro k; simp [emptyIndicesFrom]
  | cons c rest ih =>
    intro k
    by_cases hc : c = Player.none
    · simp [emptyIndicesFrom, hc, ih, List.count_cons]
    · simp [emptyIndicesFrom, hc, ih, List.count_cons]

theorem count_none_replicate (m : Nat) :
    (List.replicate m Player.none).count Player.none = m := by
  simp

/-! ## Perft, from `perft.rs` -/

/-- `perft(board, depth)` from `perft.rs`: depth 0 is one leaf, depth 1 counts
the legal moves without recursing, and otherwise each legal move is applied to
a copy of the board and the recursive counts are summed. -/
def perft (b : Board n) : Nat → Nat
  | 0 => 1
  | 1 => generate_moves b (fun count _ => (count + 1, false)) 0
  | d + 2 =>
    generate_moves b (fun count mv => (count + perft (make_move b mv) (d + 1), false)) 0

theorem runVisits_count (ms : List (Move n)) :
    ∀ s : Nat, runVisits (fun c _ => (c + 1, false)) ms s = s + ms.length := by
  induction ms with
  | nil => intro s; simp [runVisits]
  | cons m ms ih =>
    intro s
    simp only [runVisits, ih, List.length_cons]
    omega

theorem runVisits_sum (g : Move n → Nat) (ms : List (Move n)) :
    ∀ s : Nat, runVisits (fun c mv => (c + g mv, false)) ms s = s + (ms.map g).sum := by
  induction ms with
  | nil => intro s; simp [runVisits]
  | cons m ms ih =>
    intro s
    simp only [runVisits, ih, List.map_cons, List.sum_cons]
    omega

theorem turn_ne_none (b : Board n) : turn b ≠ Player.none := by
  unfold turn
  split <;> simp

theorem flat_index_eq (i n : Nat) : i / n * n + i % n = i := by
  rw [Nat.mul_comm]
  exact Nat.div_add_mod i n

theorem make_move_cells (b : Board n) (m : Move n) :
    (make_move b m).cells = b.cells.set m.index (turn b) := by
  simp [make_move, flat_index_eq]

theorem perft_zero (b : Board n) : perft b 0 = 1 := rfl

theorem perft_one (b : Board n) : perft b 1 = (emptyIdx b).length := by
  show generate_moves b _ 0 = _
  rw [generate_moves_eq_runVisits, runVisits_count, List.length_map, Nat.zero_add]

theorem perft_two_step (b : Board n) (d : Nat) :
    perft b (d + 2) =
      ((emptyIdx b).map fun i => perft (make_move b (⟨i⟩ : Move n)) (d + 1)).sum := by
  show generate_moves b _ 0 = _
  rw [generate_moves_eq_runVisits,
    runVisits_sum (fun mv => perft (make_move b mv) (d + 1)), List.map_map, Nat.zero_add]
  rfl

theorem count_none_set (a : Player) (ha : a ≠ Player.none) :
    ∀ (l : List Player) (i : Nat), l[i]? = some Player.none →
      (l.set i a).count Player.none + 1 = l.count Player.none := by
  intro l
  induction l with
  | nil => intro i hi; simp at hi
  | cons c rest ih =>
    intro i hi
    cases i with
    | zero =>
      rw [List.getElem?_cons_zero] at hi
      have hc : c = Player.none := Option.some.inj hi
      subst hc
      simp [List.count_cons, ha]
    | succ i =>
      rw [List.getElem?_cons_succ] at hi
      have := ih i hi
      simp only [List.set_cons_succ, List.count_cons]
      omega

theorem sum_map_const {α : Type} (c : Nat) :
    ∀ (l : List α) (f : α → Nat), (∀ x ∈ l, f x = c) → (l.map f).sum = l.length * c := by
  intro l
  induction l with
  | nil => intro f _; simp
  | cons x xs ih =>
    intro f h
    simp only [List.map_cons, List.sum_cons, List.length_cons, ih f fun y hy => h y (by simp [hy]),
      h x (by simp)]
    ring

/-! ## Claim theorems: move application, enumeration, perft basics -/

/-- C5: for a non-null move whose target cell is empty, `make_move` writes the
mover `turn(board)` exactly at the move's flattened index, leaves every other
cell unchanged, stores the move in `last_move`, and increments `ply` by one. -/
theorem C5_make_move_frame {n : Nat} (b : Board n) (m : Move n)
    (hnull : m.is_null = false) (hidx : m.index < n * n)
    (hlen : b.cells.length = n * n) (hcell : b.cells[m.index]? = some Player.none) :
    (make_move b m).cells[m.index]? = some (turn b)
    ∧ (∀ k, k ≠ m.index → (make_move b m).cells[k]? = b.cells[k]?)
    ∧ (make_move b m).last_move = some m
    ∧ (make_move b m).ply = b.ply + 1 := by
  refine ⟨?_, ?_, rfl, rfl⟩
  · rw [make_move_cells]
    exact List.getElem?_set_eq_of_lt _ (by omega)
  · intro k hk
    rw [make_move_cells]
    exact List.getElem?_set_ne (by omega)

theorem C5_make_move_frame_witness :
    ((⟨1⟩ : Move 2).is_null = false ∧ (⟨1⟩ : Move 2).index < 2 * 2
      ∧ (Board.empty 2).cells.length = 2 * 2
      ∧ (Board.empty 2).cells[(⟨1⟩ : Move 2).index]? = some Player.none)
    ∧ ((make_move (Board.empty 2) ⟨1⟩).cells[(⟨1⟩ : Move 2).index]? =
          some (turn (Board.empty 2))
        ∧ (∀ k, k ≠ (⟨1⟩ : Move 2).index →
            (make_move (Board.empty 2) ⟨1⟩).cells[k]? = (Board.empty 2).cells[k]?)
        ∧ (make_move (Board.empty 2) ⟨1⟩).last_move = some ⟨1⟩
        ∧ (make_move (Board.empty 2) ⟨1⟩).ply = (Board.empty 2).ply + 1) :=
  ⟨⟨by decide, by decide, by decide, by decide⟩,
    C5_make_move_frame (Board.empty 2) ⟨1⟩ (by decide) (by decide) (by decide) (by decide)⟩

/-- C6: `generate_moves` visits exactly the empty cells' moves, in ascending
flattened-index order, with the short-circuit semantics of `runVisits` (the
visitor's `true` stops the walk before any later cell is examined); on the
empty board of side `n` there are exactly `n*n` such moves. -/
theorem C6_generate_moves_enumeration {n : Nat} (b : Board n) :
    (∀ (σ : Type) (f : σ → Move n → σ × Bool) (s : σ),
      generate_moves b f s = runVisits f ((emptyIdx b).map fun j => (⟨j⟩ : Move n)) s)
    ∧ (∀ j, j ∈ emptyIdx b ↔ b.cells[j]? = some Player.none)
    ∧ (emptyIdx b).Pairwise (· < ·)
    ∧ (emptyIdx (Board.empty n)).length = n * n := by
  refine ⟨fun σ f s => generate_moves_eq_runVisits b f s, fun j => ?_,
    emptyIndicesFrom_sorted b.cells 0, ?_⟩
  · rw [emptyIdx, mem_emptyIndicesFrom b.cells 0 j, Nat.sub_zero]
    simp
  · rw [emptyIdx, Board.empty, emptyIndicesFrom_length_eq_count, count_none_replicate]

/-- C7: `perft` at depth 0 is 1 for every board; at depth 1 it is the number
of legal moves (empty cells), counted without recursion; and on the empty
board of side `n` the depth-2 count is `n*n * (n*n - 1)`. -/
theorem C7_perft_base_counts {n : Nat} :
    (∀ b : Board n, perft b 0 = 1)
    ∧ (∀ b : Board n, perft b 1 = (emptyIdx b).length)
    ∧ perft (Board.empty n) 2 = n * n * (n * n - 1) := by
  refine ⟨perft_zero, perft_one, ?_⟩
  rw [show (2 : Nat) = 0 + 2 from rfl, perft_two_step]
  have hlen : (emptyIdx (Board.empty n)).length = n * n := by
    rw [emptyIdx, Board.empty, emptyIndicesFrom_length_eq_count, count_none_replicate]
  rw [sum_map_const (n * n - 1) _ _ ?_, hlen]
  intro i hi
  have hmem := (mem_emptyIndicesFrom (Board.empty n).cells 0 i).1 hi
  rw [Nat.sub_zero] at hmem
  rw [perft_one]
  rw [emptyIdx, emptyIndicesFrom_length_eq_count, make_move_cells]
  have := count_none_set (turn (Board.empty n)) (turn_ne_none _)
    (Board.empty n).cells (⟨i⟩ : Move n).index hmem.2
  have hcnt : (Board.empty n).cells.count Player.none = n * n := by
    rw [Board.empty, count_none_replicate]
  omega

/-! ## Perft depends only on which cells are empty -/

/-- The emptiness mask of a grid: `true` exactly at the empty cells. -/
def noneMask (l : List Player) : List Bool := l.map fun c => c == Player.none

theorem emptyIndicesFrom_eq_of_mask :
    ∀ (l1 l2 : List Player), noneMask l1 = noneMask l2 →
      ∀ k, emptyIndicesFrom l1 k = emptyIndicesFrom l2 k := by
  intro l1
  induction l1 with
  | nil =>
    intro l2 h k
    cases l2 with
    | nil => rfl
    | cons d r2 => simp [noneMask] at h
  | cons c r1 ih =>
    intro l2 h k
    cases l2 with
    | nil => simp [noneMask] at h
    | cons d r2 =>
      simp only [noneMask, List.map_cons, List.cons.injEq] at h
      have hcd : (c = Player.none) ↔ (d = Player.none) := by
        constructor <;> intro hx
        · have := h.1
          rw [hx] at this
          exact eq_of_beq this.symm
        · have := h.1
          rw [hx] at this
          exact eq_of_beq this
      have hrest := ih r2 h.2
      by_cases hc : c = Player.none
      · rw [emptyIndicesFrom, emptyIndicesFrom, if_pos hc, if_pos (hcd.1 hc), hrest]
      · rw [emptyIndicesFrom, emptyIndicesFrom, if_neg hc, if_neg fun hd => hc (hcd.2 hd),
          hrest]

theorem noneMask_set (l : List Player) (i : Nat) (a : Player) (ha : a ≠ Player.none) :
    noneMask (l.set i a) = (noneMask l).set i false := by
  rw [noneMask, noneMask, List.map_set]
  congr 1
  simpa using ha

theorem perft_eq_of_mask {n : Nat} :
    ∀ (d : Nat) (b1 b2 : Board n), noneMask b1.cells = noneMask b2.cells →
      perft b1 d = perft b2 d := by
  intro d
  induction d using Nat.strong_induction_on with
  | _ d ih =>
    match d with
    | 0 => intro b1 b2 _; rfl
    | 1 =>
      intro b1 b2 h
      rw [perft_one, perft_one, emptyIdx, emptyIdx, emptyIndicesFrom_eq_of_mask _ _ h 0]
    | d + 2 =>
      intro b1 b2 h
      rw [perft_two_step, perft_two_step]
      have he : emptyIdx b1 = emptyIdx b2 := emptyIndicesFrom_eq_of_mask _ _ h 0
      rw [← he]
      apply congrArg List.sum
      apply List.map_congr_left
      intro i _
      apply ih (d + 1) (by omega)
      rw [make_move_cells, make_move_cells, noneMask_set _ _ _ (turn_ne_none b1),
        noneMask_set _ _ _ (turn_ne_none b2), h]

/-- C9: `perft` never consults `outcome()`: at depth ≥ 2 it decomposes as the
sum over all empty cells' children (whether or not a five-in-a-row is already
on the board), and its value is a function of the cell grid alone — changing
`ply` and `last_move` arbitrarily leaves every count unchanged. -/
theorem C9_perft_grid_only {n : Nat} :
    (∀ (b : Board n) (lm : Option (Move n)) (p d : Nat),
      perft { cells := b.cells, last_move := lm, ply := p } d = perft b d)
    ∧ (∀ (b : Board n) (d : Nat),
      perft b (d + 2) =
        ((emptyIdx b).map fun i => perft (make_move b (⟨i⟩ : Move n)) (d + 1)).sum) :=
  ⟨fun b lm p d => perft_eq_of_mask d _ b rfl, fun b d => perft_two_step b d⟩

/-! ## Cached perft, from `perft.rs` -/

/-- The transposition table of `perft_cached`: an association list standing in
for the `HashMap<(Board, u8), u64>`.  Lookup compares keys with `Board`'s
`PartialEq`/`Hash`, which use only the cell grid. -/
abbrev Cache (n : Nat) := List ((Board n × Nat) × Nat)

/-- `cache.get(&(board, depth))`: the first entry whose board has the same
cell grid and whose depth matches. -/
def cacheGet (cache : Cache n) (b : Board n) (d : Nat) : Option Nat :=
  (cache.find? fun e => e.1.1.cells == b.cells && e.1.2 == d).map fun e => e.2

/-- `perft_cached(board, depth, cache)` from `perft.rs`: depths 0 and 1 are
answered directly without touching the cache; otherwise a hit short-circuits,
and a miss recurses over all children, threading the cache, and inserts the
computed count under the key `(board, depth)` before returning it. -/
def perft_cached (b : Board n) : Nat → Cache n → Nat × Cache n
  | 0, cache => (1, cache)
  | 1, cache => (generate_moves b (fun count _ => (count + 1, false)) 0, cache)
  | d + 2, cache =>
    match cacheGet cache b (d + 2) with
    | some count => (count, cache)
    | none =>
      let r := generate_moves b
        (fun s mv =>
          let r2 := perft_cached (make_move b mv) (d + 1) s.2
          ((s.1 + r2.1, r2.2), false))
        (0, cache)
      (r.1, ((b, d + 2), r.1) :: r.2)

/-- A cache is valid when every entry stores the perft count of its key. -/
def CacheOK (cache : Cache n) : Prop :=
  ∀ (b : Board n) (d c : Nat), cacheGet cache b d = some c → c = perft b d

theorem cacheOK_nil {n : Nat} : CacheOK ([] : Cache n) := by
  intro b d c h
  simp [cacheGet, List.find?] at h

theorem cacheGet_cons (e : (Board n × Nat) × Nat) (cache : Cache n) (b : Board n) (d : Nat) :
    cacheGet (e :: cache) b d =
      if e.1.1.cells == b.cells && e.1.2 == d then some e.2 else cacheGet cache b d := by
  cases hp : (e.1.1.cells == b.cells && e.1.2 == d)
  · simp [cacheGet, List.find?_cons, hp]
  · simp [cacheGet, List.find?_cons, hp]

theorem cacheOK_insert (cache : Cache n) (h : CacheOK cache) (b : Board n) (d c : Nat)
    (hc : ∀ b' : Board n, b'.cells = b.cells → perft b' d = c) :
    CacheOK (((b, d), c) :: cache) := by
  intro b' d' c' hget
  rw [cacheGet_cons] at hget
  by_cases hp : (b.cells == b'.cells && d == d') = true
  · rw [if_pos hp] at hget
    have h1 : b.cells = b'.cells := eq_of_beq (Bool.and_elim_left hp)
    have h2 : d = d' := eq_of_beq (Bool.and_elim_right hp)
    subst h2
    rw [← Option.some.inj hget, hc b' h1.symm]
  · rw [if_neg hp] at hget
    exact h b' d' c' hget

theorem perft_cached_fold {n : Nat} (b : Board n) (d : Nat)
    (ihd : ∀ (b' : Board n) (cache : Cache n), CacheOK cache →
      (perft_cached b' (d + 1) cache).1 = perft b' (d + 1)
      ∧ CacheOK (perft_cached b' (d + 1) cache).2) :
    ∀ (ms : List (Move n)) (acc : Nat) (cache : Cache n), CacheOK cache →
      (runVisits
          (fun s mv =>
            let r2 := perft_cached (make_move b mv) (d + 1) s.2
            ((s.1 + r2.1, r2.2), false))
          ms (acc, cache)).1
        = acc + (ms.map fun mv => perft (make_move b mv) (d + 1)).sum
      ∧ CacheOK (runVisits
          (fun s mv =>
            let r2 := perft_cached (make_move b mv) (d + 1) s.2
            ((s.1 + r2.1, r2.2), false))
          ms (acc, cache)).2 := by
  intro ms
  induction ms with
  | nil =>
    intro acc cache h
    exact ⟨by simp [runVisits], h⟩
  | cons mv ms ih =>
    intro acc cache h
    have hchild := ihd (make_move b mv) cache h
    have hrec := ih (acc + (perft_cached (make_move b mv) (d + 1) cache).1)
      (perft_cached (make_move b mv) (d + 1) cache).2 hchild.2
    simp only [runVisits]
    refine ⟨?_, hrec.2⟩
    rw [hrec.1, hchild.1, List.map_cons, List.sum_cons]
    omega

theorem perft_cached_correct {n : Nat} :
    ∀ (d : Nat) (b : Board n) (cache : Cache n), CacheOK cache →
      (perft_cached b d cache).1 = perft b d ∧ CacheOK (perft_cached b d cache).2 := by
  intro d
  induction d using Nat.strong_induction_on with
  | _ d ih =>
    match d with
    | 0 => intro b cache h; exact ⟨rfl, h⟩
    | 1 => intro b cache h; exact ⟨rfl, h⟩
    | d + 2 =>
      intro b cache h
      have ihd : ∀ (b' : Board n) (cache' : Cache n), CacheOK cache' →
          (perft_cached b' (d + 1) cache').1 = perft b' (d + 1)
          ∧ CacheOK (perft_cached b' (d + 1) cache').2 :=
        fun b' cache' h' => ih (d + 1) (by omega) b' cache' h'
      cases hg : cacheGet cache b (d + 2) with
      | some c =>
        have hval : c = perft b (d + 2) := h b (d + 2) c hg
        simp only [perft_cached, hg]
        exact ⟨hval, h⟩
      | none =>
        have hfold := perft_cached_fold b d ihd ((emptyIdx b).map fun j => (⟨j⟩ : Move n))
          0 cache h
        have hgm : generate_moves b
            (fun s mv =>
              let r2 := perft_cached (make_move b mv) (d + 1) s.2
              ((s.1 + r2.1, r2.2), false))
            (0, cache)
          = runVisits
            (fun s mv =>
              let r2 := perft_cached (make_move b mv) (d + 1) s.2
              ((s.1 + r2.1, r2.2), false))
            ((emptyIdx b).map fun j => (⟨j⟩ : Move n)) (0, cache) :=
          generate_moves_eq_runVisits b _ _
        have hsum : (((emptyIdx b).map fun j => (⟨j⟩ : Move n)).map
            fun mv => perft (make_move b mv) (d + 1)).sum = perft b (d + 2) := by
          rw [perft_two_step, List.map_map]
          rfl
        simp only [perft_cached, hg]
        rw [hgm] at *
        constructor
        · rw [hfold.1, hsum, Nat.zero_add]
        · apply cacheOK_insert _ hfold.2
          intro b' hb'
          rw [hfold.1, hsum, Nat.zero_add]
          exact perft_eq_of_mask (d + 2) b' b (by rw [noneMask, noneMask, hb'])

/-- C2: with an empty cache, `perft_cached` computes exactly `perft` at every
board and depth; depths 0 and 1 return without reading or writing the cache;
and cache lookup keys boards by their cell grid only — `ply` and `last_move`
are invisible to it. -/
theorem C2_perft_cached_equiv {n : Nat} :
    (∀ (b : Board n) (d : Nat), (perft_cached b d []).1 = perft b d)
    ∧ (∀ (b : Board n) (cache : Cache n), perft_cached b 0 cache = (1, cache))
    ∧ (∀ (b : Board n) (cache : Cache n), perft_cached b 1 cache = (perft b 1, cache))
    ∧ (∀ (cache : Cache n) (b : Board n) (lm : Option (Move n)) (p d : Nat),
        cacheGet cache { cells := b.cells, last_move := lm, ply := p } d
          = cacheGet cache b d) :=
  ⟨fun b d => (perft_cached_correct d b [] cacheOK_nil).1,
    fun _ _ => rfl, fun _ _ => rfl, fun _ _ _ _ _ => rfl⟩

/-! ## Reachable boards and their invariants -/

theorem turn_eq_X_iff (b : Board n) : turn b = Player.X ↔ b.ply % 2 = 0 := by
  unfold turn
  rcases Nat.mod_two_eq_zero_or_one b.ply with h | h <;> rw [h] <;> simp

theorem turn_make_move (b : Board n) (m : Move n) :
    turn (make_move b m) = (turn b).neg := by
  have hply : (make_move b m).ply = b.ply + 1 := rfl
  unfold turn Player.neg
  rw [hply]
  rcases Nat.mod_two_eq_zero_or_one b.ply with h | h
  · rw [h, show (b.ply + 1) % 2 = 1 by omega]
  · rw [h, show (b.ply + 1) % 2 = 0 by omega]

/-- The boards reachable from `Board::new()` by moves satisfying the apply
precondition: the move is not null and its target cell is empty. -/
inductive Reachable (n : Nat) : Board n → Prop where
  | base (h : n ≤ 19) : Reachable n (Board.empty n)
  | step {b : Board n} {m : Move n} (hb : Reachable n b) (hnull : m.is_null = false)
      (hcell : b.cells[m.index]? = some Player.none) : Reachable n (make_move b m)

theorem countP_nonempty_replicate (k : Nat) :
    (List.replicate k Player.none).countP (fun c => !(c == Player.none)) = 0 := by
  induction k with
  | zero => rfl
  | succ k ih => simp [List.replicate_succ, List.countP_cons, ih]

theorem countP_nonempty_set (a : Player) (ha : a ≠ Player.none) :
    ∀ (l : List Player) (i : Nat), l[i]? = some Player.none →
      (l.set i a).countP (fun c => !(c == Player.none))
        = l.countP (fun c => !(c == Player.none)) + 1 := by
  intro l
  induction l with
  | nil => intro i hi; simp at hi
  | cons c rest ih =>
    intro i hi
    cases i with
    | zero =>
      rw [List.getElem?_cons_zero] at hi
      have hc : c = Player.none := Option.some.inj hi
      subst hc
      simp [List.countP_cons, ha]
    | succ i =>
      rw [List.getElem?_cons_succ] at hi
      have := ih i hi
      simp only [List.set_cons_succ, List.countP_cons]
      omega

/-- C8: every board reachable from `new()` through precondition-respecting
moves keeps a grid of `n*n` cells whose non-empty count equals `ply`, and the
side to move is `X` exactly when `ply` is even; a fresh board has `X` to move,
and every move application toggles the turn. -/
theorem C8_reachable_invariants {n : Nat} (b : Board n) (hb : Reachable n b) :
    b.cells.length = n * n
    ∧ b.cells.countP (fun c => !(c == Player.none)) = b.ply
    ∧ (turn b = Player.X ↔ b.ply % 2 = 0)
    ∧ turn (Board.empty n) = Player.X
    ∧ (∀ (b' : Board n) (m : Move n), turn (make_move b' m) = (turn b').neg) := by
  have main : b.cells.length = n * n
      ∧ b.cells.countP (fun c => !(c == Player.none)) = b.ply := by
    induction hb with
    | base h =>
      exact ⟨by simp [Board.empty], by rw [Board.empty, countP_nonempty_replicate]⟩
    | step hb hnull hcell ih =>
      rename_i b' m'
      refine ⟨?_, ?_⟩
      · rw [make_move_cells, List.length_set, ih.1]
      · show (make_move b' m').cells.countP _ = b'.ply + 1
        rw [make_move_cells, countP_nonempty_set (turn b') (turn_ne_none b') b'.cells
          m'.index hcell, ih.2]
  exact ⟨main.1, main.2, turn_eq_X_iff b, rfl, turn_make_move⟩

theorem C8_reachable_invariants_witness :
    (make_move (Board.empty 2) ⟨0⟩).cells.length = 2 * 2
    ∧ (make_move (Board.empty 2) ⟨0⟩).cells.countP (fun c => !(c == Player.none))
        = (make_move (Board.empty 2) ⟨0⟩).ply
    ∧ (turn (make_move (Board.empty 2) ⟨0⟩) = Player.X
        ↔ (make_move (Board.empty 2) ⟨0⟩).ply % 2 = 0)
    ∧ turn (Board.empty 2) = Player.X
    ∧ (∀ (b' : Board 2) (m : Move 2), turn (make_move b' m) = (turn b').neg) :=
  C8_reachable_invariants (make_move (Board.empty 2) ⟨0⟩)
    (Reachable.step (Reachable.base (by omega)) (by decide) (by decide))

/-! ## The debug-build precondition check of make_move -/

/-- C4 counterexample: in the debug-assertion model, applying a move whose
target cell is already occupied (cell 0 holds `X`) does not fail — the write
goes through and overwrites the stone.  Only the null check exists. -/
theorem C4_counterexample :
    make_move_debug
        ({ cells := [Player.X, Player.none, Player.none, Player.none],
           last_move := none, ply := 1 } : Board 2) ⟨0⟩
      = some { cells := [Player.O, Player.none, Player.none, Player.none],
               last_move := some ⟨0⟩, ply := 2 } := by
  decide

/-- C4 amended: with debug assertions enabled, `make_move` checks only that
the move is not null; a non-null move is applied unconditionally, with no
check that the target cell is empty. -/
theorem C4_debug_assert_null_only {n : Nat} :
    ∀ (b : Board n) (m : Move n),
      (make_move_debug b m = none ↔ m.is_null = true)
      ∧ (m.is_null = false → make_move_debug b m = some (make_move b m)) := by
  intro b m
  unfold make_move_debug
  by_cases h : m.is_null <;> simp [h]

/-! ## The FEN decoder, `impl FromStr for Board` in `board.rs`

The string plumbing is modelled over `List Char`: `splitWS` is Rust's
`split_whitespace` (non-empty tokens between whitespace runs), `splitSlash`
is `split('/')` (which keeps empty pieces), and `parseU16` is
`str::parse::<u16>` (optional leading `+`, decimal digits, range check).
Indexing `out.cells[i]` with `i ≥ SIDE` is a Rust panic, surfaced here as
`PRes.panic`. -/

def splitWSAux : List Char → List Char → List (List Char)
  | [], acc => if acc = [] then [] else [acc.reverse]
  | c :: rest, acc =>
    if c.isWhitespace then
      if acc = [] then splitWSAux rest []
      else acc.reverse :: splitWSAux rest []
    else splitWSAux rest (c :: acc)

def splitWS (l : List Char) : List (List Char) := splitWSAux l []

def splitSlashAux : List Char → List Char → List (List Char)
  | [], acc => [acc.reverse]
  | c :: rest, acc =>
    if c = '/' then acc.reverse :: splitSlashAux rest []
    else splitSlashAux rest (c :: acc)

def splitSlash (l : List Char) : List (List Char) := splitSlashAux l []

def parseU16 (cs : List Char) : Option Nat :=
  let ds := match cs with
    | '+' :: rest => rest
    | _ => cs
  if ds = [] then none
  else if ds.all fun c => c.isDigit then
    let v := ds.foldl (fun a c => a * 10 + (c.toNat - 48)) 0
    if v < 65536 then some v else none
  else none

/-- One row of the FEN board part: the `for c in row.chars()` loop, writing
into the flat grid at `i * n + col`.  A write with `i ≥ n` is the source's
out-of-bounds `out.cells[i]` panic. -/
def decodeRow (n i : Nat) : List Char → Nat → List Player → PRes (List Player)
  | [], col, cells =>
    if col = n then .ok cells else .err "Too few columns in FEN string"
  | c :: cs, col, cells =>
    if n ≤ col then .err "Too many columns in FEN string"
    else if c = 'x' then
      if i < n then decodeRow n i cs (col + 1) (cells.set (i * n + col) Player.X)
      else .panic
    else if c = 'o' then
      if i < n then decodeRow n i cs (col + 1) (cells.set (i * n + col) Player.O)
      else .panic
    else if c = '.' then
      if i < n then decodeRow n i cs (col + 1) (cells.set (i * n + col) Player.none)
      else .panic
    else .err "Invalid character in FEN string"

/-- The `for (i, row) in rows.enumerate()` loop.  Note there is no check that
the number of rows equals `n`. -/
def decodeRowsLoop (n : Nat) : List (List Char) → Nat → List Player → PRes (List Player)
  | [], _, cells => .ok cells
  | row :: rows, i, cells =>
    match decodeRow n i row 0 cells with
    | .ok cells' => decodeRowsLoop n rows (i + 1) cells'
    | .err e => .err e
    | .panic => .panic

/-- `Board::from_str`: FEN-style decoding.  Order as in the source: construct
`Self::new()` (panics for `n > 19`), split off the board part, the turn
symbol and the ply, reject a turn symbol inconsistent with the ply's parity,
then decode the rows.  `last_move` is never assigned and stays `None`. -/
def from_str (n : Nat) (s : String) : PRes (Board n) :=
  match Board.new n with
  | .ok out =>
    match splitWS s.toList with
    | [] => .err "No board part found in FEN string"
    | boardPart :: parts1 =>
      match parts1 with
      | [] => .err "No turn part found in FEN string"
      | turnPart :: parts2 =>
        match turnPart with
        | [] => .err "No turn part found in FEN string"
        | tc :: _ =>
          match (if tc = 'x' then some Player.X
                 else if tc = 'o' then some Player.O
                 else none) with
          | none => .err "Invalid turn part found in FEN string"
          | some turnP =>
            match parts2 with
            | [] => .err "No ply part found in FEN string"
            | plyPart :: _ =>
              match parseU16 plyPart with
              | none => .err "No ply part found in FEN string"
              | some ply =>
                if turn { out with ply := ply } ≠ turnP then
                  .err "Turn part does not match ply part in FEN string"
                else
                  match decodeRowsLoop n (splitSlash boardPart) 0 out.cells with
                  | .ok cells => .ok { cells := cells, last_move := none, ply := ply }
                  | .err e => .err e
                  | .panic => .panic
  | .err e => .err e
  | .panic => .panic

/-- C3 counterexample: decoding is not panic-free.  A FEN string with more
rows than the side length (here three rows on a 2×2 board) reaches the
out-of-bounds write `out.cells[i]` with `i = 2` and aborts instead of
returning a decode error. -/
theorem C3_counterexample : from_str 2 "xx/xx/xx x 0" = .panic := by decide

/-- C3 amended: wrong column counts, invalid symbols, an unparseable ply, a
missing/invalid turn symbol, and a ply/turn parity mismatch are all returned
as recoverable `err` values; but a row count larger than the side causes a
fatal out-of-bounds abort (see the counterexample), and a row count smaller
than the side is silently accepted, the missing rows staying empty. -/
theorem C3_decode_error_cases :
    from_str 2 "x/xx x 0" = .err "Too few columns in FEN string"
    ∧ from_str 2 "xxx/xx x 0" = .err "Too many columns in FEN string"
    ∧ from_str 2 "z./.. x 0" = .err "Invalid character in FEN string"
    ∧ from_str 2 "../.. x abc" = .err "No ply part found in FEN string"
    ∧ from_str 2 "../.." = .err "No turn part found in FEN string"
    ∧ from_str 2 "../.. q 0" = .err "Invalid turn part found in FEN string"
    ∧ from_str 2 "../.. o 0" = .err "Turn part does not match ply part in FEN string"
    ∧ from_str 2 ".. x 0"
        = .ok { cells := [Player.none, Player.none, Player.none, Player.none],
                last_move := none, ply := 0 } := by
  refine ⟨by decide, by decide, by decide, by decide, by decide, by decide, by decide, by decide⟩

/-- C10: the decoder never validates the stone count against the declared
ply — only the turn symbol's parity is checked — so boards whose non-empty
cell count differs from `ply` decode successfully (here 4 stones with
`ply = 0`); and every successfully decoded board has `last_move = none`. -/
theorem C10_decoder_stone_count_unchecked :
    (∀ (n : Nat) (s : String) (b : Board n), from_str n s = .ok b → b.last_move = none)
    ∧ from_str 2 "xx/xx x 0"
        = .ok { cells := [Player.X, Player.X, Player.X, Player.X],
                last_move := none, ply := 0 }
    ∧ ([Player.X, Player.X, Player.X, Player.X].countP (fun c => !(c == Player.none)) = 4
        ∧ (4 : Nat) ≠ 0) := by
  refine ⟨?_, by decide, by decide, by decide⟩
  intro n s b h
  unfold from_str at h
  iterate 12 (all_goals try split at h)
  all_goals cases h
  rfl

theorem C10_decoder_stone_count_unchecked_witness :
    from_str 2 "xx/xx x 0"
      = .ok ({ cells := [Player.X, Player.X, Player.X, Player.X],
               last_move := none, ply := 0 } : Board 2)
    ∧ ({ cells := [Player.X, Player.X, Player.X, Player.X],
         last_move := none, ply := 0 } : Board 2).last_move = none := by
  refine ⟨by decide, ?_⟩
  exact C10_decoder_stone_count_unchecked.1 2 "xx/xx x 0"
    { cells := [Player.X, Player.X, Player.X, Player.X], last_move := none, ply := 0 }
    (by decide)

/-! ## Win detection: `Board::row_along` and `Board::outcome` -/

/-- Read a cell at signed coordinates; out-of-bounds reads return `none`.
Every read `row_along` performs in the source is guarded to be in bounds, so
the out-of-bounds default is never consulted on the source's executions. -/
def cellAt (n : Nat) (cells : List Player) (r c : Int) : Player :=
  if 0 ≤ r ∧ r < (n : Int) ∧ 0 ≤ c ∧ c < (n : Int) then
    cells.getD (r.toNat * n + c.toNat) Player.none
  else Player.none

/-- Result of one directional scan loop of `row_along`: either the early
`return true` (count reached five) or the `break` with the running count. -/
inductive ScanRes where
  | win
  | cont (count : Nat)
deriving DecidableEq, Repr

/-- The first loop of `row_along`: walk in direction `(dx, dy)` from
`(row + dx, col + dy)`, incrementing `count` while cells match `last_piece`,
returning `win` the instant the count reaches five, and breaking at a
mismatch or at the grid boundary.  `fuel` makes the recursion well-founded;
since the count starts at one and the loop early-exits at five, at most four
matching iterations and one breaking read occur, so any fuel ≥ 5 behaves as
the source's unbounded loop. -/
def scanP (n : Nat) (cells : List Player) (p : Player) (dx dy : Int) :
    Nat → Int → Int → Nat → ScanRes
  | 0, _, _, count => .cont count
  | fuel + 1, r, c, count =>
    if cellAt n cells r c ≠ p then .cont count
    else if count + 1 = 5 then .win
    else if dx < 0 ∧ r = 0 ∨ dy < 0 ∧ c = 0
        ∨ dx > 0 ∧ r = (n : Int) - 1 ∨ dy > 0 ∧ c = (n : Int) - 1 then .cont (count + 1)
    else scanP n cells p dx dy fuel (r + dx) (c + dy) (count + 1)

/-- The second loop of `row_along`: the same walk in direction `(-dx, -dy)`
(stepping `row_d -= D_X`), with the boundary tests written with the flipped
signs as in the source, continuing the same running count. -/
def scanN (n : Nat) (cells : List Player) (p : Player) (dx dy : Int) :
    Nat → Int → Int → Nat → ScanRes
  | 0, _, _, count => .cont count
  | fuel + 1, r, c, count =>
    if cellAt n cells r c ≠ p then .cont count
    else if count + 1 = 5 then .win
    else if dx > 0 ∧ r = 0 ∨ dy > 0 ∧ c = 0
        ∨ dx < 0 ∧ r = (n : Int) - 1 ∨ dy < 0 ∧ c = (n : Int) - 1 then .cont (count + 1)
    else scanN n cells p dx dy fuel (r - dx) (c - dy) (count + 1)

/-- `Board::row_along::<D_X, D_Y>(row, col)`: seed the count at one for the
just-placed stone, scan the positive direction unless the first step already
leaves the grid, then continue the same count in the negative direction. -/
def row_along (b : Board n) (dx dy : Int) (row col : Nat) : Bool :=
  let last_piece := (turn b).neg
  let first :=
    if dx < 0 ∧ row = 0 ∨ dy < 0 ∧ col = 0
        ∨ dx > 0 ∧ row = n - 1 ∨ dy > 0 ∧ col = n - 1 then ScanRes.cont 1
    else scanP n b.cells last_piece dx dy 8 ((row : Int) + dx) ((col : Int) + dy) 1
  match first with
  | .win => true
  | .cont count =>
    if dx > 0 ∧ row = 0 ∨ dy > 0 ∧ col = 0
        ∨ dx < 0 ∧ row = n - 1 ∨ dy < 0 ∧ col = n - 1 then false
    else
      match scanN n b.cells last_piece dx dy 8 ((row : Int) - dx) ((col : Int) - dy) count with
      | .win => true
      | .cont _ => false

/-- `Board::outcome()`: `none` with no last move; otherwise check the four
axes through the last move's cell and report the mover's win, a draw on a
full board, or an in-progress game. -/
def outcome (b : Board n) : Option Player :=
  match b.last_move with
  | none => none
  | some m =>
    let row := m.index / n
    let col := m.index % n
    if row_along b 0 1 row col || row_along b 1 0 row col
        || row_along b 1 1 row col || row_along b 1 (-1) row col then
      some (turn b).neg
    else if b.ply = n * n then some Player.none
    else none

/-! ### Specification-side description of a win -/

/-- Length of the maximal run of `p`-cells along direction `(dx, dy)`
starting at `(r, c)`, computed with fuel. -/
def runLenF (n : Nat) (cells : List Player) (p : Player) (dx dy : Int) :
    Nat → Int → Int → Nat
  | 0, _, _ => 0
  | fuel + 1, r, c =>
    if cellAt n cells r c = p then runLenF n cells p dx dy fuel (r + dx) (c + dy) + 1
    else 0

/-- The run length with always-sufficient fuel (`n + 1` exceeds any straight
run inside an `n × n` grid). -/
def runLen (n : Nat) (cells : List Player) (p : Player) (dx dy r c : Int) : Nat :=
  runLenF n cells p dx dy (n + 1) r c

/-- The spec's notion of a win along one axis: some window of five
consecutive cells in direction `(dx, dy)`, containing `(row, col)` at offset
`t`, consists entirely of `p`-stones.  (A `p`-cell is in bounds by
definition of `cellAt`, so runs of six or more contain such a window.) -/
def fiveThrough (n : Nat) (cells : List Player) (p : Player) (row col : Nat)
    (dx dy : Int) : Prop :=
  ∃ t : Nat, t ≤ 4 ∧ ∀ j : Nat, j ≤ 4 →
    cellAt n cells ((row : Int) + ((j : Int) - (t : Int)) * dx)
      ((col : Int) + ((j : Int) - (t : Int)) * dy) = p

/-- A five-in-a-row through `(row, col)` along one of the four axes the
source scans: horizontal, vertical, or either diagonal. -/
def fiveInRowThrough (n : Nat) (cells : List Player) (p : Player) (row col : Nat) : Prop :=
  fiveThrough n cells p row col 0 1 ∨ fiveThrough n cells p row col 1 0
  ∨ fiveThrough n cells p row col 1 1 ∨ fiveThrough n cells p row col 1 (-1)

/-! ### Run-length facts -/

theorem cellAt_of_not_inB (n : Nat) (cells : List Player) (r c : Int)
    (h : ¬(0 ≤ r ∧ r < (n : Int) ∧ 0 ≤ c ∧ c < (n : Int))) :
    cellAt n cells r c = Player.none := by
  rw [cellAt, if_neg h]

theorem inB_of_cellAt {n : Nat} {cells : List Player} {p : Player} {r c : Int}
    (hp : p ≠ Player.none) (h : cellAt n cells r c = p) :
    0 ≤ r ∧ r < (n : Int) ∧ 0 ≤ c ∧ c < (n : Int) := by
  by_contra hb
  rw [cellAt_of_not_inB n cells r c hb] at h
  exact hp h.symm

theorem runLenF_le (n : Nat) (cells : List Player) (p : Player) (dx dy : Int) :
    ∀ (fuel : Nat) (r c : Int), runLenF n cells p dx dy fuel r c ≤ fuel := by
  intro fuel
  induction fuel with
  | zero => intro r c; exact Nat.le_refl 0
  | succ fuel ih =>
    intro r c
    rw [runLenF]
    by_cases h : cellAt n cells r c = p
    · rw [if_pos h]
      exact Nat.succ_le_succ (ih _ _)
    · rw [if_neg h]
      exact Nat.zero_le _

theorem runLenF_stable_succ (n : Nat) (cells : List Player) (p : Player) (dx dy : Int) :
    ∀ (fuel : Nat) (r c : Int), runLenF n cells p dx dy fuel r c < fuel →
      runLenF n cells p dx dy (fuel + 1) r c = runLenF n cells p dx dy fuel r c := by
  intro fuel
  induction fuel with
  | zero => intro r c h; omega
  | succ fuel ih =>
    intro r c h
    rw [runLenF] at h ⊢
    conv_rhs => rw [runLenF]
    by_cases hc : cellAt n cells r c = p
    · rw [if_pos hc] at h ⊢
      rw [if_pos hc, ih (r + dx) (c + dy) (by omega)]
    · rw [if_neg hc, if_neg hc]

theorem runLenF_stable (n : Nat) (cells : List Player) (p : Player) (dx dy : Int)
    (fuel : Nat) (r c : Int) (h : runLenF n cells p dx dy fuel r c < fuel) :
    ∀ g, fuel ≤ g → runLenF n cells p dx dy g r c = runLenF n cells p dx dy fuel r c := by
  intro g hg
  induction g, hg using Nat.le_induction with
  | base => rfl
  | succ g hg ih =>
    rw [runLenF_stable_succ n cells p dx dy g r c (by omega), ih]

theorem runLenF_cells (n : Nat) (cells : List Player) (p : Player) (dx dy : Int) :
    ∀ (fuel : Nat) (r c : Int) (j : Nat), j < runLenF n cells p dx dy fuel r c →
      cellAt n cells (r + (j : Int) * dx) (c + (j : Int) * dy) = p := by
  intro fuel
  induction fuel with
  | zero =>
    intro r c j h
    rw [runLenF] at h
    omega
  | succ fuel ih =>
    intro r c j h
    rw [runLenF] at h
    by_cases hc : cellAt n cells r c = p
    · rw [if_pos hc] at h
      cases j with
      | zero => simpa using hc
      | succ j =>
        have := ih (r + dx) (c + dy) j (by omega)
        have harg1 : r + dx + (j : Int) * dx = r + ((j : Int) + 1) * dx := by ring
        have harg2 : c + dy + (j : Int) * dy = c + ((j : Int) + 1) * dy := by ring
        rw [harg1, harg2] at this
        simpa [Nat.cast_succ] using this
    · rw [if_neg hc] at h
      omega

theorem runLen_le_n (n : Nat) (cells : List Player) {p : Player} {dx dy : Int}
    (hd : dx = 1 ∨ dx = -1 ∨ dy = 1 ∨ dy = -1) (hp : p ≠ Player.none) (r c : Int) :
    runLen n cells p dx dy r c ≤ n := by
  rw [runLen]
  by_contra hlt
  have h1 : runLenF n cells p dx dy (n + 1) r c ≤ n + 1 := runLenF_le n cells p dx dy _ r c
  have heq : runLenF n cells p dx dy (n + 1) r c = n + 1 := by omega
  have hall : ∀ j : Nat, j < n + 1 →
      cellAt n cells (r + (j : Int) * dx) (c + (j : Int) * dy) = p := by
    intro j hj
    exact runLenF_cells n cells p dx dy (n + 1) r c j (by omega)
  have h0 := inB_of_cellAt hp (hall 0 (by omega))
  have hn := inB_of_cellAt hp (hall n (by omega))
  push_cast at h0 hn
  rcases hd with h | h | h | h <;> subst h <;> omega

theorem runLen_rec {n : Nat} {cells : List Player} {p : Player} {dx dy : Int}
    (hd : dx = 1 ∨ dx = -1 ∨ dy = 1 ∨ dy = -1) (hp : p ≠ Player.none) (r c : Int) :
    runLen n cells p dx dy r c =
      if cellAt n cells r c = p then runLen n cells p dx dy (r + dx) (c + dy) + 1
      else 0 := by
  conv_lhs => rw [runLen, runLenF]
  by_cases hc : cellAt n cells r c = p
  · rw [if_pos hc, if_pos hc]
    congr 1
    have hle : runLenF n cells p dx dy n (r + dx) (c + dy) ≤ n :=
      runLenF_le n cells p dx dy n (r + dx) (c + dy)
    rcases Nat.lt_or_ge (runLenF n cells p dx dy n (r + dx) (c + dy)) n with hlt | hge
    · rw [runLen, runLenF_stable n cells p dx dy n (r + dx) (c + dy) hlt (n + 1) (by omega)]
    · exfalso
      have hfull : runLenF n cells p dx dy n (r + dx) (c + dy) = n := by omega
      have hbig := runLen_le_n n cells hd hp r c
      rw [runLen, runLenF, if_pos hc, hfull] at hbig
      omega
  · rw [if_neg hc, if_neg hc]

theorem runLen_cells {n : Nat} {cells : List Player} {p : Player} {dx dy : Int}
    (r c : Int) (j : Nat) (h : j < runLen n cells p dx dy r c) :
    cellAt n cells (r + (j : Int) * dx) (c + (j : Int) * dy) = p :=
  runLenF_cells n cells p dx dy (n + 1) r c j h

theorem le_runLen {n : Nat} {cells : List Player} {p : Player} {dx dy : Int}
    (hd : dx = 1 ∨ dx = -1 ∨ dy = 1 ∨ dy = -1) (hp : p ≠ Player.none) :
    ∀ (k : Nat) (r c : Int),
      (∀ j : Nat, j < k → cellAt n cells (r + (j : Int) * dx) (c + (j : Int) * dy) = p) →
      k ≤ runLen n cells p dx dy r c := by
  intro k
  induction k with
  | zero => intro r c _; exact Nat.zero_le _
  | succ k ih =>
    intro r c h
    have h0 : cellAt n cells r c = p := by
      have := h 0 (by omega)
      simpa using this
    rw [runLen_rec hd hp r c, if_pos h0]
    have hshift : ∀ j : Nat, j < k →
        cellAt n cells (r + dx + (j : Int) * dx) (c + dy + (j : Int) * dy) = p := by
      intro j hj
      have := h (j + 1) (by omega)
      have harg1 : r + ((j : Int) + 1) * dx = r + dx + (j : Int) * dx := by ring
      have harg2 : c + ((j : Int) + 1) * dy = c + dy + (j : Int) * dy := by ring
      push_cast at this
      rw [harg1, harg2] at this
      exact this
    have := ih (r + dx) (c + dy) hshift
    omega

/-! ### The scan loops compute capped run lengths -/

theorem scanP_spec (n : Nat) (cells : List Player) {p : Player} {dx dy : Int}
    (hd : dx = 1 ∨ dx = -1 ∨ dy = 1 ∨ dy = -1) (hp : p ≠ Player.none) :
    ∀ (fuel : Nat) (r c : Int) (count : Nat), 1 ≤ count → count ≤ 4 → 5 - count ≤ fuel →
      scanP n cells p dx dy fuel r c count =
        if 5 ≤ count + runLen n cells p dx dy r c then .win
        else .cont (count + runLen n cells p dx dy r c) := by
  intro fuel
  induction fuel with
  | zero =>
    intro r c count h1 h4 hf
    exfalso
    omega
  | succ fuel ih =>
    intro r c count h1 h4 hf
    rw [scanP]
    by_cases hc : cellAt n cells r c = p
    · rw [if_neg (not_not_intro hc), runLen_rec hd hp r c, if_pos hc]
      by_cases h5 : count + 1 = 5
      · rw [if_pos h5, if_pos (by omega)]
      · rw [if_neg h5]
        by_cases hb : dx < 0 ∧ r = 0 ∨ dy < 0 ∧ c = 0
            ∨ dx > 0 ∧ r = (n : Int) - 1 ∨ dy > 0 ∧ c = (n : Int) - 1
        · rw [if_pos hb]
          have hout : ¬(0 ≤ r + dx ∧ r + dx < (n : Int) ∧ 0 ≤ c + dy ∧ c + dy < (n : Int)) := by
            rcases hb with ⟨h, h2⟩ | ⟨h, h2⟩ | ⟨h, h2⟩ | ⟨h, h2⟩ <;> omega
          have hnext : runLen n cells p dx dy (r + dx) (c + dy) = 0 := by
            rw [runLen_rec hd hp, if_neg]
            intro hcp
            rw [cellAt_of_not_inB n cells _ _ hout] at hcp
            exact hp hcp.symm
          rw [hnext, if_neg (by omega)]
        · rw [if_neg hb]
          have hrec := ih (r + dx) (c + dy) (count + 1) (by omega) (by omega) (by omega)
          rw [hrec]
          have harith : count + 1 + runLen n cells p dx dy (r + dx) (c + dy)
              = count + (runLen n cells p dx dy (r + dx) (c + dy) + 1) := by omega
          rw [harith]
    · rw [if_pos hc, runLen_rec hd hp r c, if_neg hc, if_neg (by omega)]
      norm_num

theorem scanN_eq_scanP (n : Nat) (cells : List Player) (p : Player) (dx dy : Int) :
    ∀ (fuel : Nat) (r c : Int) (count : Nat),
      scanN n cells p dx dy fuel r c count = scanP n cells p (-dx) (-dy) fuel r c count := by
  intro fuel
  induction fuel with
  | zero => intro r c count; rfl
  | succ fuel ih =>
    intro r c count
    rw [scanN, scanP]
    by_cases h1 : cellAt n cells r c ≠ p
    · rw [if_pos h1, if_pos h1]
    · rw [if_neg h1, if_neg h1]
      by_cases h5 : count + 1 = 5
      · rw [if_pos h5, if_pos h5]
      · rw [if_neg h5, if_neg h5]
        have hcond : (dx > 0 ∧ r = 0 ∨ dy > 0 ∧ c = 0 ∨ dx < 0 ∧ r = (n : Int) - 1
              ∨ dy < 0 ∧ c = (n : Int) - 1)
            ↔ (-dx < 0 ∧ r = 0 ∨ -dy < 0 ∧ c = 0 ∨ -dx > 0 ∧ r = (n : Int) - 1
              ∨ -dy > 0 ∧ c = (n : Int) - 1) := by omega
        by_cases hb : dx > 0 ∧ r = 0 ∨ dy > 0 ∧ c = 0 ∨ dx < 0 ∧ r = (n : Int) - 1
            ∨ dy < 0 ∧ c = (n : Int) - 1
        · rw [if_pos hb, if_pos (hcond.1 hb)]
        · rw [if_neg hb, if_neg (fun h => hb (hcond.2 h))]
          rw [show r - dx = r + -dx from by ring, show c - dy = c + -dy from by ring]
          exact ih (r + -dx) (c + -dy) (count + 1)

theorem turn_neg_ne_none (b : Board n) : (turn b).neg ≠ Player.none := by
  unfold turn
  rcases Nat.mod_two_eq_zero_or_one b.ply with h | h <;> rw [h] <;> decide

/-- `row_along` answers whether the combined run through the seed cell —
one for the seed, plus the maximal runs in the two opposite directions —
reaches five. -/
theorem row_along_iff (b : Board n) (dx dy : Int) (row col : Nat)
    (hd4 : dx = 0 ∧ dy = 1 ∨ dx = 1 ∧ dy = 0 ∨ dx = 1 ∧ dy = 1 ∨ dx = 1 ∧ dy = -1)
    (hrow : row < n) (hcol : col < n) :
    row_along b dx dy row col = true ↔
      5 ≤ 1 + runLen n b.cells (turn b).neg dx dy ((row : Int) + dx) ((col : Int) + dy)
          + runLen n b.cells (turn b).neg (-dx) (-dy) ((row : Int) - dx) ((col : Int) - dy) := by
  have hp : (turn b).neg ≠ Player.none := turn_neg_ne_none b
  have hd : dx = 1 ∨ dx = -1 ∨ dy = 1 ∨ dy = -1 := by
    rcases hd4 with ⟨h1, h2⟩ | ⟨h1, h2⟩ | ⟨h1, h2⟩ | ⟨h1, h2⟩ <;> omega
  have hdneg : -dx = 1 ∨ -dx = -1 ∨ -dy = 1 ∨ -dy = -1 := by omega
  set F := runLen n b.cells (turn b).neg dx dy ((row : Int) + dx) ((col : Int) + dy) with hFdef
  set B := runLen n b.cells (turn b).neg (-dx) (-dy) ((row : Int) - dx) ((col : Int) - dy)
    with hBdef
  have hfirst : (if dx < 0 ∧ row = 0 ∨ dy < 0 ∧ col = 0
        ∨ dx > 0 ∧ row = n - 1 ∨ dy > 0 ∧ col = n - 1 then ScanRes.cont 1
      else scanP n b.cells (turn b).neg dx dy 8 ((row : Int) + dx) ((col : Int) + dy) 1)
      = if 5 ≤ 1 + F then ScanRes.win else ScanRes.cont (1 + F) := by
    by_cases hg : dx < 0 ∧ row = 0 ∨ dy < 0 ∧ col = 0
        ∨ dx > 0 ∧ row = n - 1 ∨ dy > 0 ∧ col = n - 1
    · rw [if_pos hg]
      have hout : ¬(0 ≤ (row : Int) + dx ∧ (row : Int) + dx < (n : Int)
          ∧ 0 ≤ (col : Int) + dy ∧ (col : Int) + dy < (n : Int)) := by
        rcases hg with ⟨h, h2⟩ | ⟨h, h2⟩ | ⟨h, h2⟩ | ⟨h, h2⟩ <;> omega
      have hF0 : F = 0 := by
        rw [hFdef, runLen_rec hd hp, if_neg]
        intro hcp
        rw [cellAt_of_not_inB n b.cells _ _ hout] at hcp
        exact hp hcp.symm
      rw [hF0, if_neg (by omega)]
    · rw [if_neg hg]
      rw [scanP_spec n b.cells hd hp 8 _ _ 1 (by omega) (by omega) (by omega), hFdef]
  simp only [row_along]
  rw [hfirst]
  by_cases hwin1 : 5 ≤ 1 + F
  · rw [if_pos hwin1]
    exact ⟨fun _ => by omega, fun _ => rfl⟩
  · rw [if_neg hwin1]
    show (if dx > 0 ∧ row = 0 ∨ dy > 0 ∧ col = 0
        ∨ dx < 0 ∧ row = n - 1 ∨ dy < 0 ∧ col = n - 1 then false
      else match scanN n b.cells (turn b).neg dx dy 8 ((row : Int) - dx) ((col : Int) - dy)
          (1 + F) with
        | .win => true
        | .cont _ => false) = true ↔ 5 ≤ 1 + F + B
    by_cases hg2 : dx > 0 ∧ row = 0 ∨ dy > 0 ∧ col = 0
        ∨ dx < 0 ∧ row = n - 1 ∨ dy < 0 ∧ col = n - 1
    · rw [if_pos hg2]
      have hout : ¬(0 ≤ (row : Int) - dx ∧ (row : Int) - dx < (n : Int)
          ∧ 0 ≤ (col : Int) - dy ∧ (col : Int) - dy < (n : Int)) := by
        rcases hg2 with ⟨h, h2⟩ | ⟨h, h2⟩ | ⟨h, h2⟩ | ⟨h, h2⟩ <;> omega
      have hB0 : B = 0 := by
        rw [hBdef, runLen_rec hdneg hp, if_neg]
        intro hcp
        rw [cellAt_of_not_inB n b.cells _ _ hout] at hcp
        exact hp hcp.symm
      constructor
      · intro h
        simp at h
      · intro h
        exfalso
        omega
    · rw [if_neg hg2]
      rw [scanN_eq_scanP, scanP_spec n b.cells hdneg hp 8 _ _ (1 + F) (by omega) (by omega)
        (by omega)]
      have hBpos : runLen n b.cells (turn b).neg (-dx) (-dy) ((row : Int) - dx)
          ((col : Int) - dy) = B := by rw [hBdef]
      rw [hBpos]
      by_cases hwin2 : 5 ≤ 1 + F + B
      · rw [if_pos (by omega)]
        exact ⟨fun _ => hwin2, fun _ => rfl⟩
      · rw [if_neg (by omega)]
        exact ⟨fun h => by simp at h, fun h => absurd h hwin2⟩

/-- The combined run count reaches five exactly when some five-cell window
through the centre along the axis is monochromatic in `p`. -/
theorem runs_iff_fiveThrough (n : Nat) (cells : List Player) {p : Player} {dx dy : Int}
    (hd4 : dx = 0 ∧ dy = 1 ∨ dx = 1 ∧ dy = 0 ∨ dx = 1 ∧ dy = 1 ∨ dx = 1 ∧ dy = -1)
    (hp : p ≠ Player.none) (row col : Nat)
    (hcenter : cellAt n cells (row : Int) (col : Int) = p) :
    (5 ≤ 1 + runLen n cells p dx dy ((row : Int) + dx) ((col : Int) + dy)
        + runLen n cells p (-dx) (-dy) ((row : Int) - dx) ((col : Int) - dy))
    ↔ fiveThrough n cells p row col dx dy := by
  have hd : dx = 1 ∨ dx = -1 ∨ dy = 1 ∨ dy = -1 := by
    rcases hd4 with ⟨h1, h2⟩ | ⟨h1, h2⟩ | ⟨h1, h2⟩ | ⟨h1, h2⟩ <;> omega
  have hdneg : -dx = 1 ∨ -dx = -1 ∨ -dy = 1 ∨ -dy = -1 := by omega
  set F := runLen n cells p dx dy ((row : Int) + dx) ((col : Int) + dy) with hFdef
  set B := runLen n cells p (-dx) (-dy) ((row : Int) - dx) ((col : Int) - dy) with hBdef
  have fwd_cell : ∀ i : Nat, 1 ≤ i → i ≤ F →
      cellAt n cells ((row : Int) + (i : Int) * dx) ((col : Int) + (i : Int) * dy) = p := by
    intro i h1 h2
    have hc := runLen_cells ((row : Int) + dx) ((col : Int) + dy) (i - 1)
      (show i - 1 < F by omega)
    have hcast : ((i - 1 : Nat) : Int) = (i : Int) - 1 := by omega
    have harg1 : (row : Int) + dx + ((i - 1 : Nat) : Int) * dx
        = (row : Int) + (i : Int) * dx := by rw [hcast]; ring
    have harg2 : (col : Int) + dy + ((i - 1 : Nat) : Int) * dy
        = (col : Int) + (i : Int) * dy := by rw [hcast]; ring
    rw [harg1, harg2] at hc
    exact hc
  have bwd_cell : ∀ i : Nat, 1 ≤ i → i ≤ B →
      cellAt n cells ((row : Int) - (i : Int) * dx) ((col : Int) - (i : Int) * dy) = p := by
    intro i h1 h2
    have hc := runLen_cells ((row : Int) - dx) ((col : Int) - dy) (i - 1)
      (show i - 1 < B by omega)
    have hcast : ((i - 1 : Nat) : Int) = (i : Int) - 1 := by omega
    have harg1 : (row : Int) - dx + ((i - 1 : Nat) : Int) * (-dx)
        = (row : Int) - (i : Int) * dx := by rw [hcast]; ring
    have harg2 : (col : Int) - dy + ((i - 1 : Nat) : Int) * (-dy)
        = (col : Int) - (i : Int) * dy := by rw [hcast]; ring
    rw [harg1, harg2] at hc
    exact hc
  constructor
  · intro htot
    have hmin : (min B 4 ≤ B ∧ min B 4 ≤ 4) ∧ (min B 4 = B ∨ min B 4 = 4) := by
      constructor
      · exact ⟨Nat.min_le_left B 4, Nat.min_le_right B 4⟩
      · rcases Nat.le_total B 4 with h | h
        · exact Or.inl (Nat.min_eq_left h)
        · exact Or.inr (Nat.min_eq_right h)
    refine ⟨min B 4, hmin.1.2, ?_⟩
    intro j hj
    rcases lt_trichotomy (j : Int) ((min B 4 : Nat) : Int) with hlt | heq | hgt
    · have hi1 : 1 ≤ min B 4 - j := by omega
      have hi2 : min B 4 - j ≤ B := by omega
      have hb := bwd_cell (min B 4 - j) hi1 hi2
      have hcast : ((min B 4 - j : Nat) : Int) = ((min B 4 : Nat) : Int) - (j : Int) := by
        omega
      have harg1 : (row : Int) - ((min B 4 - j : Nat) : Int) * dx
          = (row : Int) + ((j : Int) - ((min B 4 : Nat) : Int)) * dx := by rw [hcast]; ring
      have harg2 : (col : Int) - ((min B 4 - j : Nat) : Int) * dy
          = (col : Int) + ((j : Int) - ((min B 4 : Nat) : Int)) * dy := by rw [hcast]; ring
      rw [harg1, harg2] at hb
      exact hb
    · rw [show (j : Int) - ((min B 4 : Nat) : Int) = 0 from by omega]
      simpa using hcenter
    · have hi1 : 1 ≤ j - min B 4 := by omega
      have hi2 : j - min B 4 ≤ F := by
        rcases hmin.2 with h | h <;> omega
      have hf := fwd_cell (j - min B 4) hi1 hi2
      have hcast : ((j - min B 4 : Nat) : Int) = (j : Int) - ((min B 4 : Nat) : Int) := by
        omega
      have harg1 : (row : Int) + ((j - min B 4 : Nat) : Int) * dx
          = (row : Int) + ((j : Int) - ((min B 4 : Nat) : Int)) * dx := by rw [hcast]
      have harg2 : (col : Int) + ((j - min B 4 : Nat) : Int) * dy
          = (col : Int) + ((j : Int) - ((min B 4 : Nat) : Int)) * dy := by rw [hcast]
      rw [harg1, harg2] at hf
      exact hf
  · rintro ⟨t, ht4, hwin⟩
    have hF : 4 - t ≤ F := by
      rw [hFdef]
      apply le_runLen hd hp
      intro j hj
      have hw := hwin (t + (j + 1)) (by omega)
      have hcast : ((t + (j + 1) : Nat) : Int) - (t : Int) = (j : Int) + 1 := by push_cast; ring
      rw [hcast] at hw
      have harg1 : (row : Int) + ((j : Int) + 1) * dx = (row : Int) + dx + (j : Int) * dx := by
        ring
      have harg2 : (col : Int) + ((j : Int) + 1) * dy = (col : Int) + dy + (j : Int) * dy := by
        ring
      rw [harg1, harg2] at hw
      exact hw
    have hB : t ≤ B := by
      rw [hBdef]
      apply le_runLen hdneg hp
      intro j hj
      have hw := hwin (t - (j + 1)) (by omega)
      have hcast : ((t - (j + 1) : Nat) : Int) - (t : Int) = -((j : Int) + 1) := by omega
      rw [hcast] at hw
      have harg1 : (row : Int) + (-((j : Int) + 1)) * dx
          = (row : Int) - dx + (j : Int) * (-dx) := by ring
      have harg2 : (col : Int) + (-((j : Int) + 1)) * dy
          = (col : Int) - dy + (j : Int) * (-dy) := by ring
      rw [harg1, harg2] at hw
      exact hw
    omega

/-- C1: with a recorded last move whose cell holds the mover's stone,
`outcome()` reports `Win(mover)` — the opponent of `turn()` — exactly when
the placed stone lies in a five-or-longer monochromatic run along one of the
four axes; with no winning axis the result is `Draw` on a full board and
`InProgress` otherwise; and with no move ever applied it is `InProgress`. -/
theorem C1_outcome_characterization {n : Nat} (b : Board n) (m : Move n)
    (hlen : b.cells.length = n * n) (hm : b.last_move = some m) (hidx : m.index < n * n)
    (hcell : b.cells.getD m.index Player.none = (turn b).neg) :
    (∀ b' : Board n, b'.last_move = none → outcome b' = none)
    ∧ (outcome b = some (turn b).neg
        ↔ fiveInRowThrough n b.cells (turn b).neg (m.index / n) (m.index % n))
    ∧ (¬ fiveInRowThrough n b.cells (turn b).neg (m.index / n) (m.index % n)
        → outcome b = if b.ply = n * n then some Player.none else none) := by
  have hn : 0 < n := by
    rcases Nat.eq_zero_or_pos n with rfl | h
    · simp at hidx
    · exact h
  have hrow : m.index / n < n := by
    rw [Nat.div_lt_iff_lt_mul hn]
    omega
  have hcol : m.index % n < n := Nat.mod_lt _ hn
  have hcenter : cellAt n b.cells ((m.index / n : Nat) : Int) ((m.index % n : Nat) : Int)
      = (turn b).neg := by
    rw [cellAt, if_pos ⟨Int.natCast_nonneg _, by exact_mod_cast hrow,
      Int.natCast_nonneg _, by exact_mod_cast hcol⟩]
    rw [Int.toNat_natCast, Int.toNat_natCast, flat_index_eq]
    exact hcell
  have hax : ∀ dx dy : Int,
      (dx = 0 ∧ dy = 1 ∨ dx = 1 ∧ dy = 0 ∨ dx = 1 ∧ dy = 1 ∨ dx = 1 ∧ dy = -1) →
      (row_along b dx dy (m.index / n) (m.index % n) = true
        ↔ fiveThrough n b.cells (turn b).neg (m.index / n) (m.index % n) dx dy) :=
    fun dx dy hd4 =>
      (row_along_iff b dx dy (m.index / n) (m.index % n) hd4 hrow hcol).trans
        (runs_iff_fiveThrough n b.cells hd4 (turn_neg_ne_none b) _ _ hcenter)
  have h01 := hax 0 1 (Or.inl ⟨rfl, rfl⟩)
  have h10 := hax 1 0 (Or.inr (Or.inl ⟨rfl, rfl⟩))
  have h11 := hax 1 1 (Or.inr (Or.inr (Or.inl ⟨rfl, rfl⟩)))
  have h1m := hax 1 (-1) (Or.inr (Or.inr (Or.inr ⟨rfl, rfl⟩)))
  have hor : (row_along b 0 1 (m.index / n) (m.index % n)
        || row_along b 1 0 (m.index / n) (m.index % n)
        || row_along b 1 1 (m.index / n) (m.index % n)
        || row_along b 1 (-1) (m.index / n) (m.index % n)) = true
      ↔ fiveInRowThrough n b.cells (turn b).neg (m.index / n) (m.index % n) := by
    rw [fiveInRowThrough]
    simp only [Bool.or_eq_true]
    rw [h01, h10, h11, h1m, or_assoc, or_assoc]
  refine ⟨?_, ?_, ?_⟩
  · intro b' hb'
    unfold outcome
    rw [hb']
  · unfold outcome
    rw [hm]
    show (if row_along b 0 1 (m.index / n) (m.index % n)
          || row_along b 1 0 (m.index / n) (m.index % n)
          || row_along b 1 1 (m.index / n) (m.index % n)
          || row_along b 1 (-1) (m.index / n) (m.index % n) then
        some (turn b).neg
      else if b.ply = n * n then some Player.none else none) = some (turn b).neg ↔ _
    by_cases hw : (row_along b 0 1 (m.index / n) (m.index % n)
        || row_along b 1 0 (m.index / n) (m.index % n)
        || row_along b 1 1 (m.index / n) (m.index % n)
        || row_along b 1 (-1) (m.index / n) (m.index % n)) = true
    · rw [if_pos hw]
      exact ⟨fun _ => hor.1 hw, fun _ => rfl⟩
    · rw [if_neg hw]
      constructor
      · intro h
        exfalso
        by_cases hply : b.ply = n * n
        · rw [if_pos hply] at h
          exact turn_neg_ne_none b (Option.some.inj h).symm
        · rw [if_neg hply] at h
          cases h
      · intro h5
        exact absurd (hor.2 h5) hw
  · intro hnot
    unfold outcome
    rw [hm]
    show (if row_along b 0 1 (m.index / n) (m.index % n)
          || row_along b 1 0 (m.index / n) (m.index % n)
          || row_along b 1 1 (m.index / n) (m.index % n)
          || row_along b 1 (-1) (m.index / n) (m.index % n) then
        some (turn b).neg
      else if b.ply = n * n then some Player.none else none)
      = if b.ply = n * n then some Player.none else none
    rw [if_neg fun hw => hnot (hor.1 hw)]

/-- A 5×5 board on which `X` has just completed the top row (last move at
index 4, nine plies played, `O` to move). -/
def winBoard5 : Board 5 :=
  { cells := [Player.X, Player.X, Player.X, Player.X, Player.X,
              Player.O, Player.O, Player.O, Player.O, Player.none,
              Player.none, Player.none, Player.none, Player.none, Player.none,
              Player.none, Player.none, Player.none, Player.none, Player.none,
              Player.none, Player.none, Player.none, Player.none, Player.none]
    last_move := some ⟨4⟩
    ply := 9 }

theorem C1_outcome_characterization_witness :
    (winBoard5.cells.length = 5 * 5
      ∧ winBoard5.last_move = some ⟨4⟩
      ∧ (⟨4⟩ : Move 5).index < 5 * 5
      ∧ winBoard5.cells.getD (⟨4⟩ : Move 5).index Player.none = (turn winBoard5).neg)
    ∧ ((∀ b' : Board 5, b'.last_move = none → outcome b' = none)
      ∧ (outcome winBoard5 = some (turn winBoard5).neg
          ↔ fiveInRowThrough 5 winBoard5.cells (turn winBoard5).neg
              ((⟨4⟩ : Move 5).index / 5) ((⟨4⟩ : Move 5).index % 5))
      ∧ (¬ fiveInRowThrough 5 winBoard5.cells (turn winBoard5).neg
              ((⟨4⟩ : Move 5).index / 5) ((⟨4⟩ : Move 5).index % 5)
          → outcome winBoard5 = if winBoard5.ply = 5 * 5 then some Player.none else none)) :=
  ⟨⟨by decide, by decide, by decide, by decide⟩,
    C1_outcome_characterization winBoard5 ⟨4⟩ (by decide) (by decide) (by decide) (by decide)⟩

end Gomoku
